import Mathlib

/-!
# Verification of the chess move-decision core

A shallow embedding, in Lean 4, of the move-decision core of the
AnveshAI-Chess-Arena repository:

* `ChessLearningService` (`server/services/learning.ts`): the opening book and
  the position database, their ingestion (running means) and lookup;
* `StockfishEngine` (the engine protocol client): line parsing, the
  pending-request resolution discipline, degraded mode, move classification;
* `ChessGameService` (`server/services/chess.ts`): the move orchestrator
  `makeAIMove` and the single-move operation `makeMove`.

Modelling conventions:

* JavaScript numbers are modelled as `ℚ`.  Where a JS number can be `NaN`
  (the result of `parseInt`/`parseFloat` on a non-numeric string) the model
  uses `Option`, with `none` standing for `NaN`.
* JS exceptions are modelled with `Except Unit`: `Except.error ()` is a thrown
  exception.  The repository uses chess.js v1.x (camelCase API, the `after`
  field on verbose moves), whose `move()` **throws** on an illegal move rather
  than returning `null`; the rules-engine collaborator is therefore modelled
  as a function returning `Except Unit (MoveObj × σ)`.
* JS `Map` objects are modelled as functions `String → Option α`
  (`Map.get`/`Map.set` semantics); the claims under consideration never
  iterate over a whole map.
* The chess rules engine (chess.js) is an external collaborator: it is
  modelled abstractly by a structure of operations `ChessLib σ` over an
  opaque-to-us state type `σ`, exactly at the interface the orchestrator
  consumes.
-/

/-! ## JavaScript string primitives used by the source -/

/-- JS `s.split(c)` for a single-character separator: split a character list
at every occurrence of `c`, keeping empty fields.  Always returns at least
one field (like JS `String.split`). -/
def splitOnChar (c : Char) : List Char → List (List Char)
  | [] => [[]]
  | x :: xs =>
    if x = c then [] :: splitOnChar c xs
    else
      match splitOnChar c xs with
      | [] => [[x]]
      | f :: rest => (x :: f) :: rest

/-- JS `parts.join(c)` for a single-character separator. -/
def joinWithChar (c : Char) : List (List Char) → List Char
  | [] => []
  | [f] => f
  | f :: rest => f ++ c :: joinWithChar c rest

/-- JS `line.split(' ')` at the `String` level. -/
def jsSplitSpace (s : String) : List String :=
  (splitOnChar ' ' s.data).map String.mk

/-- JS `s.startsWith(p)`. -/
def jsStartsWith (p s : String) : Bool :=
  p.data.isPrefixOf s.data

/-- Value of a maximal leading run of decimal digits; `none` when the first
character is not a digit (JS `parseInt` returns `NaN` there). -/
def leadingDigitsVal : List Char → Option ℕ → Option ℕ
  | c :: cs, acc =>
    if c.isDigit then
      leadingDigitsVal cs (some ((acc.getD 0) * 10 + (c.toNat - '0'.toNat)))
    else acc
  | [], acc => acc

/-- JS `parseInt(s)` restricted to the decimal fragment the engine protocol
produces: optional sign followed by digits; `none` models `NaN`. -/
def parseIntJS (s : String) : Option ℤ :=
  match s.data with
  | '-' :: ds => (leadingDigitsVal ds none).map (fun n => -(n : ℤ))
  | '+' :: ds => (leadingDigitsVal ds none).map (fun n => (n : ℤ))
  | ds => (leadingDigitsVal ds none).map (fun n => (n : ℤ))

/-- Fractional value of a digit run read after a decimal point. -/
def fracDigitsVal : List Char → ℚ → ℚ → ℚ
  | c :: cs, scale, acc =>
    if c.isDigit then
      fracDigitsVal cs (scale / 10) (acc + scale * ((c.toNat - '0'.toNat : ℕ) : ℚ))
    else acc
  | [], _, acc => acc

/-- Digits (with their count) of a maximal leading run. -/
def leadingDigits : List Char → List Char × List Char
  | c :: cs =>
    if c.isDigit then
      let (ds, rest) := leadingDigits cs
      (c :: ds, rest)
    else ([], c :: cs)
  | [] => ([], [])

/-- JS `parseFloat(s)` restricted to the plain decimal fragment
(`[+-]digits[.digits]` or `[+-].digits`); `none` models `NaN`.
Exponents and `Infinity` do not occur in the data the claims range over. -/
def parseFloatJS (s : String) : Option ℚ :=
  let core : List Char → Option ℚ := fun ds =>
    let (ip, rest) := leadingDigits ds
    match rest with
    | '.' :: fs =>
      let (fp, _) := leadingDigits fs
      if ip = [] ∧ fp = [] then none
      else some (((leadingDigitsVal ip none).getD 0 : ℚ) + fracDigitsVal fp (1/10) 0)
    | _ =>
      if ip = [] then none
      else some (((leadingDigitsVal ip none).getD 0 : ℚ))
  match s.data with
  | '-' :: ds => (core ds).map (fun q => -q)
  | '+' :: ds => core ds
  | ds => core ds

/-- JS `e || d` for a possibly-`null`/`undefined` string `e`: `null`,
`undefined` and the empty string are falsy. -/
def jsOrDefault (e : Option String) (d : String) : String :=
  match e with
  | none => d
  | some s => if s = "" then d else s

/-! ## ChessLearningService (`server/services/learning.ts`) -/

/-- Entry of the opening book (interface `OpeningMove`). -/
structure OpeningMove where
  fen : String
  move : String
  count : ℕ
  winRate : ℚ
  avgEvaluation : ℚ
  deriving DecidableEq, Repr

/-- Entry of the position database (interface `PositionData`). -/
structure PositionData where
  fen : String
  bestMoves : List String
  evaluation : ℚ
  gamesPlayed : ℕ
  deriving DecidableEq, Repr

/-- JS `Map<string, α>` modelled by its `get` function. -/
def JsMap (α : Type) : Type := String → Option α

/-- JS `map.set(k, v)`. -/
def mapSet {α : Type} (m : JsMap α) (k : String) (v : α) : JsMap α :=
  fun k' => if k' = k then some v else m k'

/-- `normalizePosition` from `learning.ts`: split the FEN at spaces and keep
only the first four fields (piece placement, turn, castling, en passant). -/
def normalizePosition (fen : String) : String :=
  String.mk (joinWithChar ' ' ((splitOnChar ' ' fen.data).take 4))

/-- The `wins` value computed (identically) in both branches of
`addToOpeningBook`: sequential `if` statements, so a draw overrides. -/
def winsValue (whiteWon blackWon draw : Bool) (side : String) : ℚ :=
  let w1 : ℚ := if side = "white" ∧ whiteWon then 1 else 0
  let w2 : ℚ := if side = "black" ∧ blackWon then 1 else w1
  if draw then 1/2 else w2

/-- The in-place update of an existing opening-book entry: increment `count`
first, then fold `wins` and `evaluation` into the running means using the
post-increment count. -/
def updateOpeningMove (m : OpeningMove) (wins evaluation : ℚ) : OpeningMove :=
  let totalGames := m.count + 1
  { m with
    count := totalGames
    winRate := (m.winRate * ((totalGames : ℚ) - 1) + wins) / (totalGames : ℚ)
    avgEvaluation := (m.avgEvaluation * ((totalGames : ℚ) - 1) + evaluation) / (totalGames : ℚ) }

/-- `movesForPosition.find(m => m.move === move)` mutates only the first
matching entry; modelled by rebuilding the list with the first match
updated. -/
def updateFirstMove (ms : List OpeningMove) (mv : String) (wins evaluation : ℚ) :
    List OpeningMove :=
  match ms with
  | [] => []
  | m :: rest =>
    if m.move = mv then updateOpeningMove m wins evaluation :: rest
    else m :: updateFirstMove rest mv wins evaluation

/-- `addToOpeningBook` from `learning.ts`. -/
def addToOpeningBook (book : JsMap (List OpeningMove)) (fen mv : String)
    (whiteWon blackWon draw : Bool) (side : String) (evaluation : ℚ) :
    JsMap (List OpeningMove) :=
  let movesForPosition := (book fen).getD []
  let wins := winsValue whiteWon blackWon draw side
  let updated :=
    if (movesForPosition.find? (fun m => m.move = mv)).isSome then
      updateFirstMove movesForPosition mv wins evaluation
    else
      movesForPosition ++ [⟨fen, mv, 1, wins, evaluation⟩]
  mapSet book fen updated

/-- `addToPositionDatabase` from `learning.ts`: append the move if unseen,
increment `gamesPlayed`, fold the evaluation into the running mean using the
post-increment count. -/
def addToPositionDatabase (dbm : JsMap PositionData) (fen mv : String)
    (evaluation : ℚ) : JsMap PositionData :=
  match dbm fen with
  | some posData =>
    let pd1 :=
      if mv ∈ posData.bestMoves then posData
      else { posData with bestMoves := posData.bestMoves ++ [mv] }
    let n := pd1.gamesPlayed + 1
    mapSet dbm fen
      { pd1 with
        gamesPlayed := n
        evaluation := (pd1.evaluation * ((n : ℚ) - 1) + evaluation) / (n : ℚ) }
  | none =>
    mapSet dbm fen ⟨fen, [mv], evaluation, 1⟩

/-- One observation of a move in a historical game: the game outcome flags,
the side that played the move, and the stored evaluation value. -/
structure Obs where
  whiteWon : Bool
  blackWon : Bool
  draw : Bool
  side : String
  evaluation : ℚ
  deriving DecidableEq, Repr

/-- The outcome value an observation contributes to `winRate`. -/
def Obs.wins (o : Obs) : ℚ := winsValue o.whiteWon o.blackWon o.draw o.side

/-- Ingest a sequence of observations of one `(position, move)` pair into the
opening book. -/
def ingestBook (book : JsMap (List OpeningMove)) (fen mv : String)
    (obs : List Obs) : JsMap (List OpeningMove) :=
  obs.foldl
    (fun b o => addToOpeningBook b fen mv o.whiteWon o.blackWon o.draw o.side o.evaluation)
    book

/-- Ingest a sequence of observations of one `(position, move)` pair into the
position database. -/
def ingestPos (dbm : JsMap PositionData) (fen mv : String) (obs : List Obs) :
    JsMap PositionData :=
  obs.foldl (fun d o => addToPositionDatabase d fen mv o.evaluation) dbm

/-- The opening-book entry stored for `(fen, mv)`. -/
def findBookEntry (book : JsMap (List OpeningMove)) (fen mv : String) :
    Option OpeningMove :=
  ((book fen).getD []).find? (fun m => m.move = mv)

/-- Sum of the outcome values of a sequence of observations. -/
def winsSum (obs : List Obs) : ℚ := (obs.map Obs.wins).sum

/-- Sum of the evaluation values of a sequence of observations. -/
def evalSum (obs : List Obs) : ℚ := (obs.map Obs.evaluation).sum

/-- JS `x || null` for a string `x`: the empty string is falsy. -/
def jsOrNullStr (o : Option String) : Option String :=
  match o with
  | some s => if s = "" then none else some s
  | none => none

/-- The stochastic pick at the end of `getBookMove` in `learning.ts`, taking
the already-scored-and-sorted candidate list (highest score first).  JS
`scoredMoves[i]` is an object, hence truthy exactly when the index is in
range; only the final `scoredMoves[0]?.move || null` applies string
falsiness. -/
def getBookMovePick (scoredMoves : List String) (rand : ℚ) : Option String :=
  if rand < 7/10 ∧ (scoredMoves.get? 0).isSome then scoredMoves.get? 0
  else if rand < 9/10 ∧ (scoredMoves.get? 1).isSome then scoredMoves.get? 1
  else if (scoredMoves.get? 2).isSome then scoredMoves.get? 2
  else jsOrNullStr (scoredMoves.get? 0)

/-- One row of the `moves` table consumed by `processGameForLearning`. -/
structure MoveRecord where
  moveNumber : ℕ
  side : String
  san : String
  uci : String
  evaluation : Option String
  deriving DecidableEq, Repr

/-- `parseFloat(move.evaluation || '0')` from `processGameForLearning`.
`parseFloatJS` is `none` (JS `NaN`) only for a non-empty, non-numeric stored
evaluation string; that case has no rational counterpart and is mapped to `0`
here — it is outside the data the claims range over, which concern absent or
empty evaluation strings and numeric ones. -/
def ingestValue (m : MoveRecord) : ℚ :=
  (parseFloatJS (jsOrDefault m.evaluation "0")).getD 0

/-! ## StockfishEngine (the engine protocol client) -/

/-- `EngineEvaluation` from the engine client.  `score` is `Option ℚ`: `none`
models a `NaN` score (a malformed `score cp` token). -/
structure EngineEvaluation where
  score : Option ℚ
  mate : Option ℤ
  bestMove : String
  pv : List String
  depth : ℤ
  deriving DecidableEq, Repr

/-- Accumulator of the token loop in `parseEvaluation`: `depth` and `scoreCp`
start at `0`, `mate` undefined, `pv` empty; `none` models `NaN` from
`parseInt`. -/
structure ParsedInfo where
  depth : Option ℤ
  scoreCp : Option ℤ
  mate : Option ℤ
  pv : List String
  deriving DecidableEq, Repr

/-- The token loop of `parseEvaluation`: scan the space-split tokens; after a
keyword the loop still advances one token at a time (the value token is
re-examined), `pv` grabs the remaining tokens and breaks.  A missing value
token is JS `undefined`, whose `parseInt` is `NaN` (`none`). -/
def parseInfoAux : List String → ParsedInfo → ParsedInfo
  | [], acc => acc
  | t :: rest, acc =>
    if t = "depth" then
      parseInfoAux rest { acc with depth := parseIntJS (rest.headD "") }
    else if t = "score" then
      match rest with
      | "cp" :: rest2 => parseInfoAux rest { acc with scoreCp := parseIntJS (rest2.headD "") }
      | "mate" :: rest2 => parseInfoAux rest { acc with mate := parseIntJS (rest2.headD "") }
      | _ => parseInfoAux rest acc
    else if t = "pv" then
      { acc with pv := rest }
    else
      parseInfoAux rest acc

/-- Parse one `info` line into the loop's final accumulator. -/
def parseInfoLine (line : String) : ParsedInfo :=
  parseInfoAux (jsSplitSpace line) ⟨some 0, some 0, none, []⟩

/-- The depth floor guard `depth >= 10` (false for `NaN`). -/
def depthAtLeast10 (p : ParsedInfo) : Bool :=
  match p.depth with
  | some d => decide (10 ≤ d)
  | none => false

/-- The `EngineEvaluation` object built when an evaluation frame resolves:
centipawns are divided by 100, `bestMove` is `pv[0] || ''`. -/
def evaluationOfInfo (p : ParsedInfo) : EngineEvaluation :=
  { score := p.scoreCp.map (fun v => (v : ℚ) / 100)
    mate := p.mate
    bestMove := p.pv.headD ""
    pv := p.pv
    depth := p.depth.getD 0 }

/-- Observable state of the `StockfishEngine` client: whether the subprocess
handle exists (`this.engine !== null`), readiness, and the two entries of the
resolver map together with the values they were resolved with. -/
structure StockfishState where
  engine : Bool
  isReady : Bool
  bestmovePending : Bool
  bestmoveResult : Option (Option String)
  evalPending : Bool
  evalResult : Option EngineEvaluation
  deriving DecidableEq, Repr

/-- `parseEvaluation`: resolve the pending `evaluate` call only when a
resolver is registered and the parsed depth reaches the floor; resolving
deletes the resolver. -/
def parseEvaluation (st : StockfishState) (line : String) : StockfishState :=
  let p := parseInfoLine line
  if st.evalPending = true ∧ depthAtLeast10 p = true then
    { st with evalPending := false, evalResult := some (evaluationOfInfo p) }
  else st

/-- Per-line dispatch of `handleEngineOutput`.  `uciok` only sends a command
back; `readyok` flips readiness; a `bestmove` line resolves the pending
`bestmove` request with `parts[1]`; an `info` line goes to
`parseEvaluation`; anything else is ignored. -/
def handleLine (st : StockfishState) (line : String) : StockfishState :=
  if line = "uciok" then st
  else if line = "readyok" then { st with isReady := true }
  else if jsStartsWith "bestmove" line = true then
    let parts := jsSplitSpace line
    if st.bestmovePending = true then
      { st with bestmovePending := false, bestmoveResult := some (parts.get? 1) }
    else st
  else if jsStartsWith "info" line = true then
    parseEvaluation st line
  else st

/-- `handleEngineOutput` over an already-line-split output stream. -/
def handleEngineOutput (st : StockfishState) (lines : List String) : StockfishState :=
  lines.foldl handleLine st

/-- A line resolves the pending `evaluate` call exactly when the dispatch
routes it to `parseEvaluation` (it is an `info` line, not one of the earlier
cases) and its parsed depth reaches the floor. -/
def evalFrameResolves (line : String) : Prop :=
  line ≠ "uciok" ∧ line ≠ "readyok" ∧ jsStartsWith "bestmove" line = false ∧
    jsStartsWith "info" line = true ∧ depthAtLeast10 (parseInfoLine line) = true

instance evalFrameResolvesDecidable : DecidablePred evalFrameResolves := fun line => by
  unfold evalFrameResolves
  infer_instance

/-- The first line of a stream that resolves the pending `evaluate` call. -/
def firstResolving : List String → Option String
  | [] => none
  | l :: ls => if evalFrameResolves l then some l else firstResolving ls

/-- Result of an async engine request: either resolved immediately without
consulting the subprocess (degraded mode), or registered as a pending
request on the resolver map. -/
inductive EngineReply (α : Type) where
  | immediate (a : α)
  | request
  deriving DecidableEq, Repr

/-- `getBestMove`: after `waitForReady()` (readiness was forced to `true` on
spawn failure), a missing subprocess handle short-circuits to the fixed
default opening move; otherwise a `bestmove` request is issued. -/
def getBestMove (st : StockfishState) (_fen : String) (_timeMs : ℚ) :
    EngineReply String :=
  if st.engine = false then .immediate "e2e4"
  else .request

/-- `evaluatePosition`: degraded mode returns the fixed trivial evaluation;
otherwise an `evaluation` request is issued. -/
def evaluatePosition (st : StockfishState) (_fen : String) (_depth : ℚ) :
    EngineReply EngineEvaluation :=
  if st.engine = false then .immediate ⟨some 0, none, "e2e4", ["e2e4"], 1⟩
  else .request

/-- Client state after `initEngine` when `spawn` itself threw synchronously:
the `catch` block runs, `this.engine` was never assigned (it stays `null`)
and readiness is forced. -/
def spawnThrowState : StockfishState :=
  ⟨false, true, false, none, false, none⟩

/-- Client state after `initEngine` when the subprocess failed to start via
the asynchronous `'error'` event (Node's normal failure mode, e.g. `ENOENT`
for a missing stockfish binary): the handler forces `isReady := true` but
never clears `this.engine`, which still holds the dead `ChildProcess`
handle. -/
def spawnErrorEventState : StockfishState :=
  ⟨true, true, false, none, false, none⟩

/-- JS subtraction on possibly-`NaN` numbers. -/
def numSub : Option ℚ → Option ℚ → Option ℚ
  | some a, some b => some (a - b)
  | _, _ => none

/-- JS `Math.abs` on a possibly-`NaN` number. -/
def numAbs (a : Option ℚ) : Option ℚ := a.map (fun x => |x|)

/-- JS `x <= c` on a possibly-`NaN` number: every comparison with `NaN` is
false. -/
def numLe (a : Option ℚ) (c : ℚ) : Bool :=
  match a with
  | some x => decide (x ≤ c)
  | none => false

/-- `classifyMove` from the engine client: bucket the absolute score
difference with inclusive upper bounds. -/
def classifyMove (evaluation bestEval : EngineEvaluation) : String :=
  let diff := numAbs (numSub evaluation.score bestEval.score)
  if numLe diff (1/10) = true then "best"
  else if numLe diff (25/100) = true then "excellent"
  else if numLe diff (1/2) = true then "good"
  else if numLe diff 1 = true then "inaccuracy"
  else if numLe diff 2 = true then "mistake"
  else "blunder"

/-- Modelled from the spec: "Move tokens are 4–5 character coordinate strings
(e.g., `e2e4`, `e7e8q`)" — used to state syntactic validity of a move token;
there is no such checker in the source. -/
def isUciMoveToken (s : String) : Bool :=
  let fileOk : Char → Bool := fun c => decide ('a' ≤ c) && decide (c ≤ 'h')
  let rankOk : Char → Bool := fun c => decide ('1' ≤ c) && decide (c ≤ '8')
  let promoOk : Char → Bool := fun c => c == 'q' || c == 'r' || c == 'b' || c == 'n'
  match s.data with
  | [a, b, c, d] => fileOk a && rankOk b && fileOk c && rankOk d
  | [a, b, c, d, p] => fileOk a && rankOk b && fileOk c && rankOk d && promoOk p
  | _ => false

/-! ## The rules-engine collaborator and ChessGameService -/

/-- Verbose move object returned by chess.js `move()`. -/
structure MoveObj where
  san : String
  fromSq : String
  toSq : String
  promotion : Option String
  after : Option String
  deriving DecidableEq, Repr

/-- The chess.js capabilities the services consume, over an abstract game
state `σ`.  `move` follows the chess.js v1 contract: it throws
(`Except.error`) on an illegal or unparsable move, leaving the state
untouched, and returns the move object with the successor state otherwise. -/
structure ChessLib (σ : Type) where
  move : σ → String → Except Unit (MoveObj × σ)
  fen : σ → String
  pgn : σ → String
  turn : σ → String
  isGameOver : σ → Bool
  isCheck : σ → Bool
  isCheckmate : σ → Bool
  isStalemate : σ → Bool
  isDraw : σ → Bool
  history : σ → List String
  historyVerbose : σ → List MoveObj
  moves : σ → List String

/-- `GameMove` as returned by the game service (optional fields that the
claims never touch are omitted). -/
structure GameMove where
  san : String
  uci : String
  fen : String
  deriving DecidableEq, Repr

/-- `GameState` as returned by `getGameState`. -/
structure GameState where
  fen : String
  pgn : String
  isGameOver : Bool
  isCheck : Bool
  isCheckmate : Bool
  isStalemate : Bool
  isDraw : Bool
  turn : String
  moves : List GameMove
  deriving DecidableEq, Repr

/-- `getGameState` from `chess.ts`; `move.after || this.chess.fen()` applies
string falsiness. -/
def getGameState {σ : Type} (lib : ChessLib σ) (s : σ) : GameState :=
  { fen := lib.fen s
    pgn := lib.pgn s
    isGameOver := lib.isGameOver s
    isCheck := lib.isCheck s
    isCheckmate := lib.isCheckmate s
    isStalemate := lib.isStalemate s
    isDraw := lib.isDraw s
    turn := lib.turn s
    moves := (lib.historyVerbose s).map (fun m =>
      ⟨m.san, m.fromSq ++ m.toSq ++ m.promotion.getD "", jsOrDefault m.after (lib.fen s)⟩) }

/-- `makeMove` from `chess.ts`: the try/catch turns a chess.js throw into a
`null` return.  (The `if (!moveObj) return null` guard is unreachable under
the chess.js v1 contract, which never returns `null`.) -/
def makeMove {σ : Type} (lib : ChessLib σ) (s : σ) (mv : String) :
    Option GameMove × σ :=
  match lib.move s mv with
  | .error _ => (none, s)
  | .ok (moveObj, s') =>
    (some ⟨moveObj.san, moveObj.fromSq ++ moveObj.toSq ++ moveObj.promotion.getD "", lib.fen s'⟩, s')

/-- The per-call collaborator results consumed by `makeAIMove`: the outcome
of the `learningService` queries on the current FEN, the two `Math.random()`
draws, and the move the engine reports. -/
structure AIMoveInputs where
  bookMove : Option String
  hasLearned : Bool
  commonMoves : List String
  useLearnedDraw : ℚ
  engineBestMove : String
  fallbackDraw : ℚ
  deriving DecidableEq, Repr

/-- The `for (const learnedMove of commonMoves)` loop in `makeAIMove`.  Under
the chess.js v1 contract the loop cannot advance past its first iteration:
the candidate either plays (early return) or `move()` throws; the
`fallThrough` continuation is reached only on an empty list. -/
def tryLearnedMoves {σ : Type} (lib : ChessLib σ) (s : σ) :
    List String → Except Unit (Option GameMove × σ) → Except Unit (Option GameMove × σ)
  | [], fallThrough => fallThrough
  | learnedMove :: _rest, _fallThrough =>
    match lib.move s learnedMove with
    | .ok (moveObj, s') => .ok (some ⟨moveObj.san, learnedMove, lib.fen s'⟩, s')
    | .error e => .error e

/-- The `try` body of `makeAIMove`: opening book (below 15 plies), then the
learned-position step gated by `Math.random() < difficulty / 2000`, then the
engine's best move. -/
def makeAIMoveTry {σ : Type} (lib : ChessLib σ) (s : σ) (difficulty : ℚ)
    (inp : AIMoveInputs) : Except Unit (Option GameMove × σ) :=
  let engineStep : Except Unit (Option GameMove × σ) :=
    let _thinkingTime := max 500 (min 3000 difficulty)
    match lib.move s inp.engineBestMove with
    | .ok (moveObj, s') => .ok (some ⟨moveObj.san, inp.engineBestMove, lib.fen s'⟩, s')
    | .error e => .error e
  let learnedStep : Except Unit (Option GameMove × σ) :=
    if inp.hasLearned = true then
      if inp.useLearnedDraw < difficulty / 2000 ∧ 0 < inp.commonMoves.length then
        tryLearnedMoves lib s inp.commonMoves engineStep
      else engineStep
    else engineStep
  if (lib.history s).length < 15 then
    match inp.bookMove with
    | some bookMove =>
      (match lib.move s bookMove with
       | .ok (moveObj, s') => .ok (some ⟨moveObj.san, bookMove, lib.fen s'⟩, s')
       | .error e => .error e)
    | none => learnedStep
  else learnedStep

/-- The `catch` block of `makeAIMove`: a uniformly drawn random legal move,
or `null` when no legal move exists.  A throw out of this block (possible
only if `moves()` and `move()` disagree) escapes to the caller. -/
def randomFallback {σ : Type} (lib : ChessLib σ) (s : σ) (inp : AIMoveInputs) :
    Except Unit (Option GameMove × σ) :=
  let ms := lib.moves s
  if ms.length = 0 then .ok (none, s)
  else
    let randomMove := ms.getD (Int.floor (inp.fallbackDraw * ms.length)).toNat ""
    match lib.move s randomMove with
    | .ok (moveObj, s') =>
      .ok (some ⟨moveObj.san, moveObj.fromSq ++ moveObj.toSq ++ moveObj.promotion.getD "",
        lib.fen s'⟩, s')
    | .error e => .error e

/-- `makeAIMove` from `chess.ts`: run the try body; any throw lands in the
catch-all random fallback. -/
def makeAIMove {σ : Type} (lib : ChessLib σ) (s : σ) (difficulty : ℚ)
    (inp : AIMoveInputs) : Except Unit (Option GameMove × σ) :=
  match makeAIMoveTry lib s difficulty inp with
  | .ok r => .ok r
  | .error _ => randomFallback lib s inp

/-- Whether an `Except` computation returned normally. -/
def exceptOk {ε α : Type} : Except ε α → Bool
  | .ok _ => true
  | .error _ => false

instance exceptDecidableEq {ε α : Type} [DecidableEq ε] [DecidableEq α] :
    DecidableEq (Except ε α) := fun x y =>
  match x, y with
  | .ok a, .ok b =>
    if h : a = b then isTrue (by rw [h])
    else isFalse (fun hc => h (Except.ok.injEq a b ▸ hc))
  | .error a, .error b =>
    if h : a = b then isTrue (by rw [h])
    else isFalse (fun hc => h (Except.error.injEq a b ▸ hc))
  | .ok _, .error _ => isFalse (fun hc => Except.noConfusion hc)
  | .error _, .ok _ => isFalse (fun hc => Except.noConfusion hc)

/-- The loop body of `processGameForLearning` for move `i` of a game: key the
current position, feed the opening book for the first `maxOpeningMoves`
plies and the position database always, then play the SAN move on the
board. -/
def processOneMove {σ : Type} (lib : ChessLib σ) (maxOpeningMoves i : ℕ)
    (whiteWon blackWon draw : Bool)
    (book : JsMap (List OpeningMove)) (dbm : JsMap PositionData)
    (s : σ) (m : MoveRecord) :
    JsMap (List OpeningMove) × JsMap PositionData × Except Unit σ :=
  let positionKey := normalizePosition (lib.fen s)
  let book' :=
    if i < maxOpeningMoves then
      addToOpeningBook book positionKey m.uci whiteWon blackWon draw m.side (ingestValue m)
    else book
  let dbm' := addToPositionDatabase dbm positionKey m.uci (ingestValue m)
  (book', dbm', (lib.move s m.san).map (fun r => r.2))

/-- A small concrete rules-engine instance used to evaluate the theorems on
concrete inputs: from state `0` exactly the moves `a2a3` and `e2e4` are
legal; everything else throws. -/
def demoLib : ChessLib ℕ :=
  { move := fun s m =>
      if s = 0 ∧ m = "a2a3" then .ok (⟨"a3", "a2", "a3", none, some "FEN-A"⟩, 1)
      else if s = 0 ∧ m = "e2e4" then .ok (⟨"e4", "e2", "e4", none, some "FEN-E"⟩, 2)
      else .error ()
    fen := fun s => if s = 0 then "FEN-0" else if s = 1 then "FEN-A" else "FEN-E"
    pgn := fun _ => ""
    turn := fun s => if s = 0 then "w" else "b"
    isGameOver := fun _ => false
    isCheck := fun _ => false
    isCheckmate := fun _ => false
    isStalemate := fun _ => false
    isDraw := fun _ => false
    history := fun _ => []
    historyVerbose := fun _ => []
    moves := fun s => if s = 0 then ["a2a3", "e2e4"] else [] }

/-! ### Lemmas about `splitOnChar` / `joinWithChar` -/

theorem splitOnChar_ne_nil (c : Char) (l : List Char) : splitOnChar c l ≠ [] := by
  induction l with
  | nil => simp [splitOnChar]
  | cons x xs ih =>
    unfold splitOnChar
    by_cases h : x = c
    · simp [h]
    · simp only [h, if_false]
      rcases hs : splitOnChar c xs with _ | ⟨f, rest⟩
      · simp
      · simp

theorem not_mem_of_mem_splitOnChar (c : Char) (l : List Char) :
    ∀ f ∈ splitOnChar c l, c ∉ f := by
  induction l with
  | nil => intro f hf; simp [splitOnChar] at hf; simp [hf]
  | cons x xs ih =>
    intro f hf
    unfold splitOnChar at hf
    by_cases h : x = c
    · rw [if_pos h, List.mem_cons] at hf
      rcases hf with hf | hf
      · simp [hf]
      · exact ih f hf
    · rw [if_neg h] at hf
      rcases hs : splitOnChar c xs with _ | ⟨g, rest⟩
      · exact absurd hs (splitOnChar_ne_nil c xs)
      · simp only [hs, List.mem_cons] at hf
        rcases hf with hf | hf
        · subst hf
          intro hmem
          rcases List.mem_cons.mp hmem with hmem | hmem
          · exact h hmem.symm
          · exact ih g (by rw [hs]; exact List.mem_cons_self g rest) hmem
        · exact ih f (by rw [hs]; exact List.mem_cons_of_mem g hf)

theorem splitOnChar_append_cons (c : Char) (p rest : List Char) (hp : c ∉ p) :
    splitOnChar c (p ++ c :: rest) = p :: splitOnChar c rest := by
  induction p with
  | nil => simp [splitOnChar]
  | cons x xs ih =>
    have hx : x ≠ c := fun h => hp (h ▸ List.mem_cons_self x xs)
    have hxs : c ∉ xs := fun h => hp (List.mem_cons_of_mem x h)
    show (if x = c then [] :: splitOnChar c (xs ++ c :: rest)
          else
            match splitOnChar c (xs ++ c :: rest) with
            | [] => [[x]]
            | f :: r => (x :: f) :: r)
        = (x :: xs) :: splitOnChar c rest
    rw [if_neg hx, ih hxs]

theorem splitOnChar_of_not_mem (c : Char) (l : List Char) (hl : c ∉ l) :
    splitOnChar c l = [l] := by
  induction l with
  | nil => simp [splitOnChar]
  | cons x xs ih =>
    have hx : x ≠ c := fun h => hl (h ▸ List.mem_cons_self x xs)
    have hxs : c ∉ xs := fun h => hl (List.mem_cons_of_mem x h)
    unfold splitOnChar
    simp only [hx, if_false, ih hxs]

theorem splitOnChar_joinWithChar (c : Char) (ls : List (List Char))
    (hne : ls ≠ []) (hfree : ∀ f ∈ ls, c ∉ f) :
    splitOnChar c (joinWithChar c ls) = ls := by
  induction ls with
  | nil => exact absurd rfl hne
  | cons f rest ih =>
    rcases rest with _ | ⟨g, rest'⟩
    · simpa [joinWithChar] using
        splitOnChar_of_not_mem c f (hfree f (List.mem_cons_self f []))
    · have hjoin : joinWithChar c (f :: g :: rest') = f ++ c :: joinWithChar c (g :: rest') := rfl
      rw [hjoin, splitOnChar_append_cons c f _ (hfree f (List.mem_cons_self f _))]
      rw [ih (by simp) (fun x hx => hfree x (List.mem_cons_of_mem f hx))]

/-! ### Claims C7 and C10: position normalization -/

/-- **C7.** Two full FENs that agree on the first four space-separated fields
(piece placement, side to move, castling rights, en-passant target) and differ
only in the trailing halfmove/fullmove-counter region normalize to the same
key, and that key is exactly the first four fields joined by single spaces:
the counters are discarded. -/
theorem normalizePosition_drops_counters
    (p t c ep cnt₁ cnt₂ : List Char)
    (hp : ' ' ∉ p) (ht : ' ' ∉ t) (hc : ' ' ∉ c) (hep : ' ' ∉ ep) :
    normalizePosition (String.mk (p ++ ' ' :: (t ++ ' ' :: (c ++ ' ' :: (ep ++ ' ' :: cnt₁)))))
      = normalizePosition (String.mk (p ++ ' ' :: (t ++ ' ' :: (c ++ ' ' :: (ep ++ ' ' :: cnt₂)))))
    ∧ normalizePosition (String.mk (p ++ ' ' :: (t ++ ' ' :: (c ++ ' ' :: (ep ++ ' ' :: cnt₁)))))
      = String.mk (p ++ ' ' :: (t ++ ' ' :: (c ++ ' ' :: ep))) := by
  have key : ∀ cnt : List Char,
      normalizePosition (String.mk (p ++ ' ' :: (t ++ ' ' :: (c ++ ' ' :: (ep ++ ' ' :: cnt)))))
        = String.mk (p ++ ' ' :: (t ++ ' ' :: (c ++ ' ' :: ep))) := by
    intro cnt
    unfold normalizePosition
    have hdata :
        (String.mk (p ++ ' ' :: (t ++ ' ' :: (c ++ ' ' :: (ep ++ ' ' :: cnt))))).data
          = p ++ ' ' :: (t ++ ' ' :: (c ++ ' ' :: (ep ++ ' ' :: cnt))) := rfl
    rw [hdata]
    rw [splitOnChar_append_cons ' ' p _ hp,
        splitOnChar_append_cons ' ' t _ ht,
        splitOnChar_append_cons ' ' c _ hc,
        splitOnChar_append_cons ' ' ep _ hep]
    rcases hs : splitOnChar ' ' cnt with _ | ⟨f, rest⟩
    · exact absurd hs (splitOnChar_ne_nil ' ' cnt)
    · simp only [List.take_succ_cons, List.take_zero]
      rfl
  exact ⟨(key cnt₁).trans (key cnt₂).symm, key cnt₁⟩

/-- **C7 witness**: the two standard FENs after 1.e4 differing only in the
counters normalize to the identical counter-free key. -/
theorem normalizePosition_drops_counters_witness :
    normalizePosition "rnbqkbnr/pppppppp/8/8/4P3/8/PPPPPPPP/RNBQKBNR b KQkq e3 0 1"
      = normalizePosition "rnbqkbnr/pppppppp/8/8/4P3/8/PPPPPPPP/RNBQKBNR b KQkq e3 7 42"
    ∧ normalizePosition "rnbqkbnr/pppppppp/8/8/4P3/8/PPPPPPPP/RNBQKBNR b KQkq e3 0 1"
      = "rnbqkbnr/pppppppp/8/8/4P3/8/PPPPPPPP/RNBQKBNR b KQkq e3" := by
  exact normalizePosition_drops_counters
    "rnbqkbnr/pppppppp/8/8/4P3/8/PPPPPPPP/RNBQKBNR".data "b".data "KQkq".data "e3".data
    "0 1".data "7 42".data
    (by decide) (by decide) (by decide) (by decide)

/-- **C10.** `normalizePosition` is idempotent: normalizing an
already-normalized key returns it unchanged, for every input string. -/
theorem normalizePosition_idempotent (s : String) :
    normalizePosition (normalizePosition s) = normalizePosition s := by
  unfold normalizePosition
  have hdata :
      (String.mk (joinWithChar ' ' ((splitOnChar ' ' s.data).take 4))).data
        = joinWithChar ' ' ((splitOnChar ' ' s.data).take 4) := rfl
  rw [hdata]
  have hne : (splitOnChar ' ' s.data).take 4 ≠ [] := by
    rcases hs : splitOnChar ' ' s.data with _ | ⟨f, rest⟩
    · exact absurd hs (splitOnChar_ne_nil ' ' s.data)
    · simp
  have hfree : ∀ f ∈ (splitOnChar ' ' s.data).take 4, ' ' ∉ f := fun f hf =>
    not_mem_of_mem_splitOnChar ' ' s.data f (List.take_subset 4 _ hf)
  rw [splitOnChar_joinWithChar ' ' _ hne hfree, List.take_take]
  norm_num

/-! ### Claim C2: move classification buckets -/

/-- **C2.** For every pair of evaluations with rational scores, `classifyMove`
buckets the absolute score difference `d = |actual − reference|` with
inclusive upper bounds: `best` iff `d ≤ 0.10`, `excellent` iff
`0.10 < d ≤ 0.25`, `good` iff `0.25 < d ≤ 0.50`, `inaccuracy` iff
`0.50 < d ≤ 1.00`, `mistake` iff `1.00 < d ≤ 2.00`, `blunder` iff `d > 2.00`;
in particular `d = 2.01` maps to `blunder`. -/
theorem classifyMove_buckets (evaluation bestEval : EngineEvaluation) (x y : ℚ)
    (hx : evaluation.score = some x) (hy : bestEval.score = some y) :
    (classifyMove evaluation bestEval = "best" ↔ |x - y| ≤ 1/10)
    ∧ (classifyMove evaluation bestEval = "excellent" ↔ 1/10 < |x - y| ∧ |x - y| ≤ 25/100)
    ∧ (classifyMove evaluation bestEval = "good" ↔ 25/100 < |x - y| ∧ |x - y| ≤ 1/2)
    ∧ (classifyMove evaluation bestEval = "inaccuracy" ↔ 1/2 < |x - y| ∧ |x - y| ≤ 1)
    ∧ (classifyMove evaluation bestEval = "mistake" ↔ 1 < |x - y| ∧ |x - y| ≤ 2)
    ∧ (classifyMove evaluation bestEval = "blunder" ↔ 2 < |x - y|)
    ∧ (|x - y| = 201/100 → classifyMove evaluation bestEval = "blunder") := by
  have hcl : classifyMove evaluation bestEval =
      (if |x - y| ≤ 1/10 then "best"
       else if |x - y| ≤ 25/100 then "excellent"
       else if |x - y| ≤ 1/2 then "good"
       else if |x - y| ≤ 1 then "inaccuracy"
       else if |x - y| ≤ 2 then "mistake"
       else "blunder") := by
    have hd : numAbs (numSub evaluation.score bestEval.score) = some |x - y| := by
      rw [hx, hy]; rfl
    simp only [classifyMove, hd, numLe, decide_eq_true_eq]
  have h7 : |x - y| = 201/100 → classifyMove evaluation bestEval = "blunder" := by
    intro hd
    rw [hcl, hd]
    norm_num
  refine ⟨?_, ?_, ?_, ?_, ?_, ?_, h7⟩ <;> rw [hcl] <;> split_ifs with h1 h2 h3 h4 h5 <;>
    first
      | exact iff_of_true rfl (by constructor <;> linarith)
      | exact iff_of_true rfl (by linarith)
      | exact iff_of_false (by decide) (by rintro ⟨ha, hb⟩; linarith)
      | exact iff_of_false (by decide) (by intro ha; linarith)

/-- **C2 witness**: a score difference of exactly `2.01` pawns is classified
as a blunder. -/
theorem classifyMove_buckets_witness :
    classifyMove ⟨some (201/100), none, "e7e5", [], 12⟩ ⟨some 0, none, "d2d4", [], 12⟩
      = "blunder" := by
  have h := classifyMove_buckets
    ⟨some (201/100), none, "e7e5", [], 12⟩ ⟨some 0, none, "d2d4", [], 12⟩
    (201/100) 0 rfl rfl
  exact h.2.2.2.2.2.2 (by norm_num)

/-! ### Claim C5: behavior when the engine subprocess failed to start -/

/-- **C5 (code bug).** The claim — like the spec's degraded mode ("fixed
trivial results rather than blocking forever") — promises that after a
failed engine start `getBestMove` returns without failing with a fixed,
syntactically valid default move (or `"none"` with no legal moves).  The
code honors this only on the synchronous spawn-throw path, where
`this.engine` stays `null`.  On Node's normal spawn-failure mode — the
asynchronous `'error'` event — the handler forces readiness but leaves the
dead subprocess handle in place, so `getBestMove` passes the
`if (!this.engine)` check and registers a pending `bestmove` request on a
process that will never answer: the call never resolves, and neither the
fixed default nor `"none"` is ever returned. -/
theorem getBestMove_spawn_failure_divergence (fen : String) (timeMs : ℚ) :
    getBestMove spawnErrorEventState fen timeMs = EngineReply.request
    ∧ (∀ m : String, getBestMove spawnErrorEventState fen timeMs ≠ EngineReply.immediate m)
    ∧ getBestMove spawnThrowState fen timeMs = EngineReply.immediate "e2e4"
    ∧ isUciMoveToken "e2e4" = true := by
  have h1 : getBestMove spawnErrorEventState fen timeMs = EngineReply.request := rfl
  refine ⟨h1, ?_, rfl, by decide⟩
  intro m hc
  rw [h1] at hc
  exact EngineReply.noConfusion hc

/-! ### Claim C6: stochastic pick over the ranked candidate list -/

/-- **C6.** For every non-empty ranked candidate list and every uniform draw
`r ∈ [0,1)`: the rank-1 move is returned when `r < 0.70`; the rank-2 move
when `0.70 ≤ r < 0.90` (rank-1 if no rank-2 exists); the rank-3 move when
`r ≥ 0.90` (rank-1 if no rank-3 exists). -/
theorem getBookMovePick_distribution (scoredMoves : List String) (rand : ℚ)
    (hne : scoredMoves ≠ []) (hmem : "" ∉ scoredMoves) :
    (rand < 7/10 → getBookMovePick scoredMoves rand = scoredMoves.get? 0)
    ∧ (7/10 ≤ rand → rand < 9/10 →
        getBookMovePick scoredMoves rand =
          if 2 ≤ scoredMoves.length then scoredMoves.get? 1 else scoredMoves.get? 0)
    ∧ (9/10 ≤ rand →
        getBookMovePick scoredMoves rand =
          if 3 ≤ scoredMoves.length then scoredMoves.get? 2 else scoredMoves.get? 0) := by
  rcases scoredMoves with _ | ⟨a, as⟩
  · exact absurd rfl hne
  have ha : a ≠ "" := fun h => hmem (h ▸ List.mem_cons_self a as)
  rcases as with _ | ⟨b, bs⟩
  · refine ⟨fun hr => ?_, fun hr1 hr2 => ?_, fun hr => ?_⟩
    · simp [getBookMovePick, hr]
    · simp [getBookMovePick, not_lt.mpr hr1, jsOrNullStr, ha]
    · simp [getBookMovePick, not_lt.mpr hr,
        not_lt.mpr (le_trans (by norm_num : (7:ℚ)/10 ≤ 9/10) hr), jsOrNullStr, ha]
  rcases bs with _ | ⟨c, cs⟩
  · refine ⟨fun hr => ?_, fun hr1 hr2 => ?_, fun hr => ?_⟩
    · simp [getBookMovePick, hr]
    · simp [getBookMovePick, not_lt.mpr hr1, hr2]
    · simp [getBookMovePick, not_lt.mpr hr,
        not_lt.mpr (le_trans (by norm_num : (7:ℚ)/10 ≤ 9/10) hr), jsOrNullStr, ha]
  refine ⟨fun hr => ?_, fun hr1 hr2 => ?_, fun hr => ?_⟩
  · simp [getBookMovePick, hr]
  · simp [getBookMovePick, not_lt.mpr hr1, hr2]
  · simp [getBookMovePick, not_lt.mpr hr,
      not_lt.mpr (le_trans (by norm_num : (7:ℚ)/10 ≤ 9/10) hr)]

/-- **C6 witness**: with three candidates and `r = 0.95` the rank-3 move is
picked. -/
theorem getBookMovePick_distribution_witness :
    getBookMovePick ["d2d4", "g1f3", "c2c4"] (95/100) = some "c2c4" := by
  have h := (getBookMovePick_distribution ["d2d4", "g1f3", "c2c4"] (95/100)
    (by decide) (by decide)).2.2 (by norm_num)
  simpa using h

/-! ### Claim C8: a rejected move leaves the game state unchanged -/

/-- **C8.** For every rules-engine instance, game state and input move
string: if `makeMove` returns `null`, the resulting service state — and
therefore everything `getGameState` observes (FEN, PGN, move history, turn) —
is exactly the state before the call. -/
theorem makeMove_rejected_preserves_state {σ : Type} (lib : ChessLib σ) (s : σ)
    (mv : String) (hrej : (makeMove lib s mv).1 = none) :
    (makeMove lib s mv).2 = s
    ∧ getGameState lib (makeMove lib s mv).2 = getGameState lib s := by
  cases h : lib.move s mv with
  | error e =>
    unfold makeMove
    rw [h]
    exact ⟨rfl, rfl⟩
  | ok r =>
    unfold makeMove at hrej
    rw [h] at hrej
    simp at hrej

/-- **C8 witness**: rejecting the unparsable move `zzz` leaves the concrete
game state untouched. -/
theorem makeMove_rejected_preserves_state_witness :
    (makeMove demoLib 0 "zzz").2 = 0
    ∧ getGameState demoLib (makeMove demoLib 0 "zzz").2 = getGameState demoLib 0 :=
  makeMove_rejected_preserves_state demoLib 0 "zzz" (by decide)

/-! ### Claim C9: absent evaluation strings are ingested as exactly 0 -/

/-- **C9.** During ingestion of a historical game, a move whose stored
evaluation string is absent (`null`) or empty is fed into both the opening
book and the position database with evaluation value exactly `0`: the
`parseFloat(move.evaluation || '0')` value is `0`, and the whole loop body
behaves exactly as if the stored string were `"0"`. -/
theorem processOneMove_missing_evaluation {σ : Type} (lib : ChessLib σ)
    (maxOpeningMoves i : ℕ) (whiteWon blackWon draw : Bool)
    (book : JsMap (List OpeningMove)) (dbm : JsMap PositionData) (s : σ)
    (m : MoveRecord) (hmiss : m.evaluation = none ∨ m.evaluation = some "") :
    ingestValue m = 0
    ∧ processOneMove lib maxOpeningMoves i whiteWon blackWon draw book dbm s m
      = processOneMove lib maxOpeningMoves i whiteWon blackWon draw book dbm s
          { m with evaluation := some "0" } := by
  have hzero : parseFloatJS "0" = some 0 := rfl
  have hv : ingestValue m = 0 := by
    rcases hmiss with h | h <;>
      simp [ingestValue, jsOrDefault, h, hzero]
  have hv' : ingestValue { m with evaluation := some "0" } = 0 := by
    simp [ingestValue, jsOrDefault, hzero]
  refine ⟨hv, ?_⟩
  simp [processOneMove, hv, hv']

/-- **C9 witness**: a concrete move row with a `null` evaluation ingests the
value `0` and behaves exactly like the literal string `"0"`. -/
theorem processOneMove_missing_evaluation_witness :
    ingestValue ⟨1, "white", "e4", "e2e4", none⟩ = 0
    ∧ processOneMove demoLib 15 0 true false false
        (fun _ => none) (fun _ => none) 0 ⟨1, "white", "e4", "e2e4", none⟩
      = processOneMove demoLib 15 0 true false false
          (fun _ => none) (fun _ => none) 0 ⟨1, "white", "e4", "e2e4", some "0"⟩ :=
  processOneMove_missing_evaluation demoLib 15 0 true false false
    (fun _ => none) (fun _ => none) 0 ⟨1, "white", "e4", "e2e4", none⟩ (Or.inl rfl)

/-! ### Claim C4: evaluation frames resolve exactly at the first depth ≥ 10 -/

/-- Once the `evaluation` resolver has been deleted, no later line changes
the evaluation-request state. -/
theorem handleLine_eval_frozen (st : StockfishState) (line : String)
    (h : st.evalPending = false) :
    (handleLine st line).evalPending = false
    ∧ (handleLine st line).evalResult = st.evalResult := by
  simp only [handleLine, parseEvaluation]
  split_ifs <;> simp_all

/-- `handleLine_eval_frozen` lifted to a whole output stream. -/
theorem handleEngineOutput_eval_frozen (lines : List String) (st : StockfishState)
    (h : st.evalPending = false) :
    (handleEngineOutput st lines).evalPending = false
    ∧ (handleEngineOutput st lines).evalResult = st.evalResult := by
  induction lines generalizing st with
  | nil => exact ⟨h, rfl⟩
  | cons l ls ih =>
    have hstep := handleLine_eval_frozen st l h
    have hrest := ih (handleLine st l) hstep.1
    exact ⟨hrest.1, hrest.2.trans hstep.2⟩

/-- A line that does not resolve the pending `evaluate` call leaves the
evaluation-request state untouched. -/
theorem handleLine_not_resolving (st : StockfishState) (line : String)
    (h : ¬ evalFrameResolves line) :
    (handleLine st line).evalPending = st.evalPending
    ∧ (handleLine st line).evalResult = st.evalResult := by
  simp only [handleLine, parseEvaluation]
  split_ifs with h1 h2 h3 h4 h5 h6 <;> simp_all [evalFrameResolves]

/-- **C4.** While an `evaluate` request is pending, an evaluation frame whose
parsed depth is below 10 never resolves it; the call is resolved exactly by
the first frame whose depth reaches 10 (the stored result is that frame's
parsed evaluation, and `none` if no such frame arrives), and once resolved no
later frame changes the result. -/
theorem evaluate_resolution (lines : List String) (st : StockfishState)
    (hpend : st.evalPending = true) (hres : st.evalResult = none) :
    (handleEngineOutput st lines).evalResult
        = (firstResolving lines).map (fun l => evaluationOfInfo (parseInfoLine l))
    ∧ ((handleEngineOutput st lines).evalPending = true ↔ firstResolving lines = none) := by
  induction lines generalizing st with
  | nil => simp [handleEngineOutput, firstResolving, hpend, hres]
  | cons l ls ih =>
    have hcons : handleEngineOutput st (l :: ls)
        = handleEngineOutput (handleLine st l) ls := rfl
    by_cases hl : evalFrameResolves l
    · have hline : handleLine st l =
          { st with evalPending := false, evalResult := some (evaluationOfInfo (parseInfoLine l)) } := by
        simp only [handleLine, parseEvaluation]
        rw [if_neg hl.1, if_neg hl.2.1, if_neg (by simp [hl.2.2.1]), if_pos hl.2.2.2.1,
          if_pos ⟨hpend, hl.2.2.2.2⟩]
      have hfrozen := handleEngineOutput_eval_frozen ls
        { st with evalPending := false, evalResult := some (evaluationOfInfo (parseInfoLine l)) } rfl
      refine ⟨?_, ?_⟩
      · rw [hcons, hline, hfrozen.2]
        simp [firstResolving, hl]
      · rw [hcons, hline]
        simp [firstResolving, hl, hfrozen.1]
    · have hline := handleLine_not_resolving st l hl
      have hih := ih (handleLine st l) (hline.1.trans hpend) (hline.2.trans hres)
      refine ⟨?_, ?_⟩
      · rw [hcons, hih.1]
        simp [firstResolving, hl]
      · rw [hcons]
        simp only [firstResolving, hl, if_false]
        exact hih.2

/-- **C4 witness**: in a concrete stream a depth-5 frame is skipped, the
depth-12 frame resolves the call with its parsed evaluation (cp 50 = 0.5
pawns), and the later depth-20 frame is ignored. -/
theorem evaluate_resolution_witness :
    (handleEngineOutput ⟨true, true, true, none, true, none⟩
        ["info depth 5 score cp 30 pv e2e4", "bestmove e2e4",
         "info depth 12 score cp 50 pv d2d4 d7d5",
         "info depth 20 score cp 99 pv a2a3"]).evalResult
      = some ⟨some (1/2), none, "d2d4", ["d2d4", "d7d5"], 12⟩
    ∧ ((handleEngineOutput ⟨true, true, true, none, true, none⟩
        ["info depth 5 score cp 30 pv e2e4", "bestmove e2e4",
         "info depth 12 score cp 50 pv d2d4 d7d5",
         "info depth 20 score cp 99 pv a2a3"]).evalPending = true
        ↔ firstResolving
            ["info depth 5 score cp 30 pv e2e4", "bestmove e2e4",
             "info depth 12 score cp 50 pv d2d4 d7d5",
             "info depth 20 score cp 99 pv a2a3"] = none) := by
  have h := evaluate_resolution
    ["info depth 5 score cp 30 pv e2e4", "bestmove e2e4",
     "info depth 12 score cp 50 pv d2d4 d7d5",
     "info depth 20 score cp 99 pv a2a3"]
    ⟨true, true, true, none, true, none⟩ rfl rfl
  refine ⟨?_, h.2⟩
  have hfr : firstResolving
      ["info depth 5 score cp 30 pv e2e4", "bestmove e2e4",
       "info depth 12 score cp 50 pv d2d4 d7d5",
       "info depth 20 score cp 99 pv a2a3"]
      = some "info depth 12 score cp 50 pv d2d4 d7d5" := by decide
  have hp : parseInfoLine "info depth 12 score cp 50 pv d2d4 d7d5"
      = ⟨some 12, some 50, none, ["d2d4", "d7d5"]⟩ := by decide
  rw [h.1, hfr]
  simp [hp, evaluationOfInfo]
  norm_num

/-! ### Claim C3: ingestion computes exact arithmetic means -/

/-- `find?` skips a prefix containing no match. -/
theorem find?_append_of_eq_none {α : Type} (p : α → Bool) (l1 l2 : List α)
    (h : l1.find? p = none) : (l1 ++ l2).find? p = l2.find? p := by
  induction l1 with
  | nil => rfl
  | cons a l ih =>
    have hall := List.find?_eq_none.mp h
    have hpa : ¬ p a = true := hall a (List.mem_cons_self a l)
    have hl : l.find? p = none :=
      List.find?_eq_none.mpr fun x hx => hall x (List.mem_cons_of_mem a hx)
    rw [List.cons_append, List.find?_cons_of_neg _ hpa, ih hl]

/-- `updateFirstMove` over a list whose prefix holds no entry for `mv`
updates exactly the final entry. -/
theorem updateFirstMove_append (pre : List OpeningMove) (e : OpeningMove)
    (mv : String) (w ev : ℚ)
    (hpre : pre.find? (fun m => m.move = mv) = none) (he : e.move = mv) :
    updateFirstMove (pre ++ [e]) mv w ev = pre ++ [updateOpeningMove e w ev] := by
  induction pre with
  | nil => simp [updateFirstMove, he]
  | cons a l ih =>
    have hall := List.find?_eq_none.mp hpre
    have hpa : ¬ a.move = mv := by
      simpa using hall a (List.mem_cons_self a l)
    have hl : l.find? (fun m => m.move = mv) = none :=
      List.find?_eq_none.mpr fun x hx => hall x (List.mem_cons_of_mem a hx)
    simp [updateFirstMove, hpa, ih hl]

/-- Splitting one observation off the end of an ingested sequence
(opening book). -/
theorem ingestBook_append_singleton (book : JsMap (List OpeningMove))
    (fen mv : String) (l : List Obs) (o : Obs) :
    ingestBook book fen mv (l ++ [o])
      = addToOpeningBook (ingestBook book fen mv l) fen mv
          o.whiteWon o.blackWon o.draw o.side o.evaluation := by
  simp [ingestBook, List.foldl_append]

/-- Splitting one observation off the end of an ingested sequence
(position database). -/
theorem ingestPos_append_singleton (dbm : JsMap PositionData)
    (fen mv : String) (l : List Obs) (o : Obs) :
    ingestPos dbm fen mv (l ++ [o])
      = addToPositionDatabase (ingestPos dbm fen mv l) fen mv o.evaluation := by
  simp [ingestPos, List.foldl_append]

/-- After ingesting a non-empty observation sequence for a `(fen, mv)` pair
that the book did not know, the list stored at `fen` is the original list
with one appended entry carrying the exact observation count and the exact
arithmetic means. -/
theorem ingestBook_fen (fen mv : String) (book0 : JsMap (List OpeningMove))
    (hb : findBookEntry book0 fen mv = none) (obs : List Obs) (hobs : obs ≠ []) :
    (ingestBook book0 fen mv obs) fen
      = some (((book0 fen).getD []) ++
          [⟨fen, mv, obs.length, winsSum obs / obs.length, evalSum obs / obs.length⟩]) := by
  have hb' : ((book0 fen).getD []).find? (fun m => m.move = mv) = none := hb
  induction obs using List.reverseRecOn with
  | nil => exact absurd rfl hobs
  | append_singleton l o ih =>
    rw [ingestBook_append_singleton]
    rcases eq_or_ne l [] with hl | hl
    · subst hl
      have hbase : ingestBook book0 fen mv [] = book0 := rfl
      rw [hbase]
      simp only [addToOpeningBook, hb', Option.isSome_none, Bool.false_eq_true, if_false,
        mapSet, if_pos rfl]
      simp [winsSum, evalSum, Obs.wins]
    · have hprev := ih hl
      simp only [addToOpeningBook, hprev, Option.getD_some]
      have hfind : (((book0 fen).getD []) ++
          [(⟨fen, mv, l.length, winsSum l / l.length, evalSum l / l.length⟩ : OpeningMove)]).find?
            (fun m => m.move = mv)
          = some ⟨fen, mv, l.length, winsSum l / l.length, evalSum l / l.length⟩ := by
        rw [find?_append_of_eq_none _ _ _ hb']
        simp
      rw [hfind]
      simp only [Option.isSome_some, if_pos]
      rw [updateFirstMove_append _ _ _ _ _ hb' rfl]
      have hn : ((l.length : ℚ)) ≠ 0 := by
        have h0 : l.length ≠ 0 := fun h => hl (List.length_eq_zero.mp h)
        exact_mod_cast h0
      have hupd : updateOpeningMove
          ⟨fen, mv, l.length, winsSum l / l.length, evalSum l / l.length⟩
          (winsValue o.whiteWon o.blackWon o.draw o.side) o.evaluation
          = ⟨fen, mv, (l ++ [o]).length, winsSum (l ++ [o]) / ((l ++ [o]).length : ℚ),
              evalSum (l ++ [o]) / ((l ++ [o]).length : ℚ)⟩ := by
        simp only [updateOpeningMove, winsSum, evalSum, Obs.wins, List.map_append,
          List.sum_append, List.length_append, List.map_cons, List.map_nil,
          List.sum_cons, List.sum_nil, List.length_cons, List.length_nil,
          OpeningMove.mk.injEq, true_and]
        have hn1 : ((l.length : ℚ)) + 1 ≠ 0 := by positivity
        push_cast
        constructor
        · rw [add_sub_cancel_right, div_mul_cancel₀ _ hn]; ring
        · rw [add_sub_cancel_right, div_mul_cancel₀ _ hn]; ring
      rw [hupd]
      simp [mapSet]

/-- After ingesting a non-empty observation sequence of one move at one
unseen position, the position record carries the exact count and the exact
arithmetic mean of the evaluations. -/
theorem ingestPos_fen (fen mv : String) (db0 : JsMap PositionData)
    (hd : db0 fen = none) (obs : List Obs) (hobs : obs ≠ []) :
    (ingestPos db0 fen mv obs) fen
      = some ⟨fen, [mv], evalSum obs / (obs.length : ℚ), obs.length⟩ := by
  induction obs using List.reverseRecOn with
  | nil => exact absurd rfl hobs
  | append_singleton l o ih =>
    rw [ingestPos_append_singleton]
    rcases eq_or_ne l [] with hl | hl
    · subst hl
      have hbase : ingestPos db0 fen mv [] = db0 := rfl
      rw [hbase]
      simp only [addToPositionDatabase, hd]
      simp [mapSet, evalSum]
    · have hprev := ih hl
      have hn : ((l.length : ℚ)) ≠ 0 := by
        have h0 : l.length ≠ 0 := fun h => hl (List.length_eq_zero.mp h)
        exact_mod_cast h0
      simp only [addToPositionDatabase, hprev]
      simp [mapSet, PositionData.mk.injEq, evalSum, List.map_append, List.sum_append]
      rw [div_mul_cancel₀ _ hn]

/-- **C3.** For every position key, move, and non-empty sequence of ingested
observations: after ingestion (first observation creates the entry with
count/gamesPlayed 1, each later one increments the counter and folds with
the post-increment running-mean formula), the stored `winRate` and
`avgEvaluation` in the opening book and the stored `evaluation` in the
position database equal the exact arithmetic means of the recorded values,
and `count`/`gamesPlayed` equal the number of observations. -/
theorem ingest_observations_mean (fen mv : String)
    (book0 : JsMap (List OpeningMove)) (db0 : JsMap PositionData)
    (obs : List Obs) (hobs : obs ≠ [])
    (hbook : findBookEntry book0 fen mv = none) (hdb : db0 fen = none) :
    findBookEntry (ingestBook book0 fen mv obs) fen mv
      = some ⟨fen, mv, obs.length, winsSum obs / (obs.length : ℚ),
          evalSum obs / (obs.length : ℚ)⟩
    ∧ (ingestPos db0 fen mv obs) fen
      = some ⟨fen, [mv], evalSum obs / (obs.length : ℚ), obs.length⟩ := by
  refine ⟨?_, ingestPos_fen fen mv db0 hdb obs hobs⟩
  have h := ingestBook_fen fen mv book0 hbook obs hobs
  have hb' : ((book0 fen).getD []).find? (fun m => m.move = mv) = none := hbook
  unfold findBookEntry
  rw [h, Option.getD_some, find?_append_of_eq_none _ _ _ hb']
  simp

/-- **C3 witness**: two observations (a white win with evaluation 2, then a
draw with evaluation 1) yield count 2, winRate (1 + ½)/2 = ¾ and average
evaluation 3/2 in the book, and gamesPlayed 2 with mean evaluation 3/2 in
the position database. -/
theorem ingest_observations_mean_witness :
    findBookEntry (ingestBook (fun _ => none) "pos" "e2e4"
        [⟨true, false, false, "white", 2⟩, ⟨false, false, true, "white", 1⟩]) "pos" "e2e4"
      = some ⟨"pos", "e2e4", 2, 3/4, 3/2⟩
    ∧ (ingestPos (fun _ => none) "pos" "e2e4"
        [⟨true, false, false, "white", 2⟩, ⟨false, false, true, "white", 1⟩]) "pos"
      = some ⟨"pos", ["e2e4"], 3/2, 2⟩ := by
  have h := ingest_observations_mean "pos" "e2e4" (fun _ => none) (fun _ => none)
    [⟨true, false, false, "white", 2⟩, ⟨false, false, true, "white", 1⟩]
    (by simp) rfl rfl
  rw [h.1, h.2]
  refine ⟨?_, ?_⟩ <;>
    · simp [winsSum, evalSum, Obs.wins, winsValue]
      norm_num


/-! ### Claim C1: rejected candidates and the decision order -/

/-- **C1 counterexample.**  The claim (a book candidate rejected as illegal
falls through to the position store and then the engine, the rejection never
surfacing as an error) is false on the code: at a concrete state with one
illegal book candidate and a legal learned move available, `makeAIMove` does
*not* behave like the run without the book candidate — the chess.js v1
`move()` throw lands in the catch-all, which plays a uniformly random legal
move (`a2a3` here) instead of consulting the store (which would give
`e2e4`). -/
theorem makeAIMove_book_fallthrough_cex :
    (⟨some "zzz", true, ["e2e4"], 0, "e2e4", 0⟩ : AIMoveInputs).bookMove = some "zzz"
    ∧ demoLib.move 0 "zzz" = Except.error ()
    ∧ (demoLib.history 0).length < 15
    ∧ makeAIMove demoLib 0 1600 ⟨some "zzz", true, ["e2e4"], 0, "e2e4", 0⟩
        ≠ makeAIMove demoLib 0 1600 ⟨none, true, ["e2e4"], 0, "e2e4", 0⟩ := by
  have hne1 : ¬("zzz" = "a2a3") := by decide
  have hne2 : ¬("zzz" = "e2e4") := by decide
  have hne3 : ¬("e2e4" = "a2a3") := by decide
  have happ : "a2" ++ "a3" = "a2a3" := rfl
  refine ⟨rfl, by decide, by decide, ?_⟩
  have hL : makeAIMove demoLib 0 1600 ⟨some "zzz", true, ["e2e4"], 0, "e2e4", 0⟩
      = .ok (some ⟨"a3", "a2a3", "FEN-A"⟩, 1) := by
    norm_num [makeAIMove, makeAIMoveTry, randomFallback, demoLib, hne1, hne2, happ]
  have hR : makeAIMove demoLib 0 1600 ⟨none, true, ["e2e4"], 0, "e2e4", 0⟩
      = .ok (some ⟨"e4", "e2e4", "FEN-E"⟩, 2) := by
    norm_num [makeAIMove, makeAIMoveTry, tryLearnedMoves, demoLib, hne3]
  rw [hL, hR]
  decide

/-- **C1 (amended).** When the opening-book candidate (step 1) is rejected as
illegal by the rules engine, the orchestrator does not fall through to the
position store or the engine: the throw aborts the decision chain and the
catch-all fallback plays a uniformly random legal move (`null` if none
exists); the illegality is never surfaced to the caller as an error (given a
rules engine whose reported legal moves are in fact playable). -/
theorem makeAIMove_rejected_book_candidate {σ : Type} (lib : ChessLib σ) (s : σ)
    (difficulty : ℚ) (inp : AIMoveInputs) (bm : String)
    (hplies : (lib.history s).length < 15)
    (hbm : inp.bookMove = some bm)
    (hrej : lib.move s bm = Except.error ())
    (hmoves : ∀ m ∈ lib.moves s, exceptOk (lib.move s m) = true)
    (hr0 : 0 ≤ inp.fallbackDraw) (hr1 : inp.fallbackDraw < 1) :
    makeAIMove lib s difficulty inp = randomFallback lib s inp
    ∧ exceptOk (makeAIMove lib s difficulty inp) = true := by
  have htry : makeAIMoveTry lib s difficulty inp = .error () := by
    simp only [makeAIMoveTry]
    rw [if_pos hplies]
    simp only [hbm, hrej]
  have hfall : makeAIMove lib s difficulty inp = randomFallback lib s inp := by
    simp only [makeAIMove, htry]
  have h2 : exceptOk (randomFallback lib s inp) = true := by
    unfold randomFallback
    by_cases hlen : (lib.moves s).length = 0
    · simp [hlen, exceptOk]
    · rw [if_neg hlen]
      set idx := (Int.floor (inp.fallbackDraw * ((lib.moves s).length : ℚ))).toNat with hidxdef
      have hpos : 0 < (lib.moves s).length := Nat.pos_of_ne_zero hlen
      have hidx : idx < (lib.moves s).length := by
        have hnq : (0 : ℚ) < ((lib.moves s).length : ℚ) := by exact_mod_cast hpos
        have hmul : inp.fallbackDraw * ((lib.moves s).length : ℚ)
            < ((lib.moves s).length : ℚ) := by nlinarith
        have hfl : Int.floor (inp.fallbackDraw * ((lib.moves s).length : ℚ))
            < ((lib.moves s).length : ℤ) := Int.floor_lt.mpr (by exact_mod_cast hmul)
        omega
      obtain ⟨m, hget⟩ : ∃ m, (lib.moves s).get? idx = some m :=
        ⟨_, List.get?_eq_get hidx⟩
      have hmem : m ∈ lib.moves s := List.get?_mem hget
      have hgetD : (lib.moves s).getD idx "" = m := by
        simp only [List.getD]
        rw [hget]
        rfl
      rw [hgetD]
      have hok := hmoves m hmem
      cases hmv : lib.move s m with
      | ok r =>
        obtain ⟨obj, s'⟩ := r
        simp [hmv, exceptOk]
      | error e =>
        rw [hmv] at hok
        simp [exceptOk] at hok
  exact ⟨hfall, hfall ▸ h2⟩

/-- **C1 (amended) witness**: the concrete illegal book candidate lands in
the random fallback and no error reaches the caller. -/
theorem makeAIMove_rejected_book_candidate_witness :
    makeAIMove demoLib 0 1600 ⟨some "zzz", true, ["e2e4"], 0, "e2e4", 0⟩
      = randomFallback demoLib 0 ⟨some "zzz", true, ["e2e4"], 0, "e2e4", 0⟩
    ∧ exceptOk (makeAIMove demoLib 0 1600 ⟨some "zzz", true, ["e2e4"], 0, "e2e4", 0⟩)
      = true :=
  makeAIMove_rejected_book_candidate demoLib 0 1600
    ⟨some "zzz", true, ["e2e4"], 0, "e2e4", 0⟩ "zzz"
    (by decide) rfl (by decide) (by decide) (by norm_num) (by norm_num)
